import Mathlib

/-!
Verification of the `TextProcessor` pipeline of this repository
(file `code.py`): tokenization, lightweight lemmatization, stopword
filtering, stemming, named-entity extraction and trigram frequency
analysis.

The embedding works over `List Char` (a text is its sequence of
characters; the model covers ASCII text, where Python's `str.lower`,
`\w` and the letter classes of the two regular expressions coincide
with the ASCII classes used here).

`re.findall(r'\b[a-zA-Z]+\b', s)` is embedded by a left-to-right
scanner: a match of that pattern is exactly a maximal run of ASCII
letters whose neighbouring characters, when present, are not word
characters (letters, digits, or the underscore) — the pattern
`[a-zA-Z]+` can only start and stop at `\b` boundaries, and inside or
at the edge of a letter/letter or letter/digit/underscore pair there is
no boundary.  Likewise `re.findall(r'\b[A-Z][a-zA-Z]*\b', s)` matches
exactly those maximal runs that start with an uppercase letter.

Python's `Counter` built from a list is embedded as an association
list in first-occurrence order, pairing each distinct element with its
multiplicity; `Counter.most_common(n)` is a stable sort by count,
descending, followed by `take n`.  The stemmer and the stopword set
come from `nltk` (outside this repository), so they are parameters of
the pipeline: every theorem below quantifies over them.
-/

namespace Authors

abbrev Word := List Char

/-- ASCII letter, the class `[a-zA-Z]` of both regular expressions. -/
def isAsciiLetter (c : Char) : Bool :=
  (('a' ≤ c) && (c ≤ 'z')) || (('A' ≤ c) && (c ≤ 'Z'))

/-- ASCII word character, the class `\w` deciding `\b` boundaries. -/
def isWordChar (c : Char) : Bool := isAsciiLetter c || c.isDigit || c == '_'

/-- Uppercase ASCII letter, the class `[A-Z]`. -/
def isUpperLetter (c : Char) : Bool := ('A' ≤ c) && (c ≤ 'Z')

/-- `str.lower` on one character (ASCII range). -/
def lowerChar (c : Char) : Char :=
  match c with
  | 'A' => 'a' | 'B' => 'b' | 'C' => 'c' | 'D' => 'd' | 'E' => 'e' | 'F' => 'f'
  | 'G' => 'g' | 'H' => 'h' | 'I' => 'i' | 'J' => 'j' | 'K' => 'k' | 'L' => 'l'
  | 'M' => 'm' | 'N' => 'n' | 'O' => 'o' | 'P' => 'p' | 'Q' => 'q' | 'R' => 'r'
  | 'S' => 's' | 'T' => 't' | 'U' => 'u' | 'V' => 'v' | 'W' => 'w' | 'X' => 'x'
  | 'Y' => 'y' | 'Z' => 'z'
  | _ => c

/-- One left-to-right pass of `re.findall(r'\b[a-zA-Z]+\b', ·)`.
`acc` is the reversed letter run currently being read, `okStart`
records whether that run began at a `\b` boundary, and `prevWord`
whether the previous character was a word character.  A run is
emitted when it began at a boundary and the character ending it
(or the end of the text) forms a boundary. -/
def findallAux : List Char → List Char → Bool → Bool → List Word
  | [], acc, okStart, _ =>
    if acc.isEmpty then [] else if okStart then [acc.reverse] else []
  | c :: rest, acc, okStart, prevWord =>
    if isAsciiLetter c then
      if acc.isEmpty then findallAux rest [c] (!prevWord) true
      else findallAux rest (c :: acc) okStart true
    else
      (if acc.isEmpty then [] else if okStart && !isWordChar c then [acc.reverse] else []) ++
        findallAux rest [] true (isWordChar c)

/-- `re.findall(r'\b[a-zA-Z]+\b', s)`. -/
def wordRuns (s : List Char) : List Word := findallAux s [] true false

/-- `TextProcessor._tokenize`: lowercase the raw text, then take the
matches of `\b[a-zA-Z]+\b`. -/
def tokenize (s : List Char) : List Word := wordRuns (s.map lowerChar)

/-- `TextProcessor._simple_lemmatize`. -/
def simple_lemmatize (w : Word) : Word :=
  if "ies".toList.isSuffixOf w && decide (3 < w.length) then
    w.take (w.length - 3) ++ "y".toList
  else if "es".toList.isSuffixOf w then w.take (w.length - 2)
  else if "ed".toList.isSuffixOf w && decide (4 < w.length) then w.take (w.length - 2)
  else if "ing".toList.isSuffixOf w && decide (5 < w.length) then w.take (w.length - 3)
  else if "s".toList.isSuffixOf w && decide (3 < w.length) then w.take (w.length - 1)
  else w

/-- The fixed allow-list of preserved names in `_process_tokens`. -/
def allowNames : List Word := ["romeo", "juliet", "verona"].map String.toList

/-- `TextProcessor._process_tokens`: lemmatize each token, keep a
token when it is not a stopword or is a preserved name, stem the
survivors.  The stemmer and the stopword set are parameters. -/
def process_tokens (stem : Word → Word) (stop_words : Word → Bool)
    (tokens : List Word) : List Word :=
  let lemmatized := tokens.map simple_lemmatize
  let no_stops := lemmatized.filter (fun t => !stop_words t || decide (t ∈ allowNames))
  no_stops.map stem

/-- First character is an uppercase ASCII letter: distinguishes the
matches of `\b[A-Z][a-zA-Z]*\b` among the matches of `\b[a-zA-Z]+\b`. -/
def startsUpper : Word → Bool
  | [] => false
  | c :: _ => isUpperLetter c

/-- The blacklist of `_extract_named_entities`. -/
def blacklist : List Word :=
  ["The", "And", "In", "A", "But", "As", "With", "For", "To", "At", "On"].map
    String.toList

/-- `re.findall(r'\b[A-Z][a-zA-Z]*\b', s)` on the raw (unlowered) text. -/
def entity_candidates (s : List Char) : List Word := (wordRuns s).filter startsUpper

/-- `TextProcessor._extract_named_entities`: the set comprehension
over the candidates, dropping blacklisted surface forms. -/
def named_entities_of (s : List Char) : Finset Word :=
  ((entity_candidates s).filter (fun e => !decide (e ∈ blacklist))).toFinset

/-- Distinct elements of a list in first-occurrence order, skipping
those already in `seen` — the key order of a Python `Counter` built
from a list. -/
def dedupFirst [DecidableEq α] (seen : List α) : List α → List α
  | [] => []
  | x :: xs =>
    if x ∈ seen then dedupFirst seen xs else x :: dedupFirst (x :: seen) xs

/-- `collections.Counter(l)`: each distinct element of `l`, in
first-occurrence order, paired with its multiplicity. -/
def counterOf [DecidableEq α] (l : List α) : List (α × Nat) :=
  (dedupFirst [] l).map (fun k => (k, l.count k))

/-- Multiplicity of `k` in a list, written via `filter` so that it is
independent of any `BEq` instance. -/
def occurrences [DecidableEq α] (k : α) (l : List α) : Nat :=
  (l.filter (fun x => decide (x = k))).length

/-- `Counter[k]` lookup: the stored count of `k`, `0` when absent. -/
def counterGet [DecidableEq α] (c : List (α × Nat)) (k : α) : Nat :=
  ((c.filter (fun kc => decide (kc.1 = k))).map Prod.snd).sum

/-- `zip(*[l[i:] for i in range(n)])`: the contiguous windows of
length `n`, sliding by one.  `zip()` of no iterables is empty. -/
def slidingWindows (n : Nat) (l : List α) : List (List α) :=
  if n = 0 then [] else (List.range (l.length + 1 - n)).map (fun j => (l.drop j).take n)

/-- `TextProcessor._compute_trigrams`: empty mapping when fewer than
`n` tokens, else the counter of the sliding windows. -/
def compute_trigrams (n : Nat) (processed : List Word) : List (List Word × Nat) :=
  if processed.length < n then [] else counterOf (slidingWindows n processed)

/-- `Counter.most_common(n)`: stable sort by count, descending, then
the first `n` entries. -/
def most_common (c : List (α × Nat)) (n : Nat) : List (α × Nat) :=
  (List.insertionSort (fun a b => b.2 ≤ a.2) c).take n

/-- The state of a constructed `TextProcessor`. -/
structure TextProcessor where
  name : List Char
  raw_text : List Char
  tokens : List Word
  processed_tokens : List Word
  named_entities : Finset Word
  token_freq : List (Word × Nat)
  trigram_freq : List (List Word × Nat)

/-- `TextProcessor.__init__`: all derived fields, in construction
order, for a given stemmer and stopword set. -/
def mkTextProcessor (stem : Word → Word) (stop_words : Word → Bool)
    (text nm : List Char) : TextProcessor :=
  let toks := tokenize text
  let processed := process_tokens stem stop_words toks
  { name := nm
    raw_text := text
    tokens := toks
    processed_tokens := processed
    named_entities := named_entities_of text
    token_freq := counterOf processed
    trigram_freq := compute_trigrams 3 processed }

/-- `TextProcessor.top_tokens`, with the post-state made explicit. -/
def top_tokens (p : TextProcessor) (n : Nat) : List (Word × Nat) × TextProcessor :=
  (most_common p.token_freq n, p)

/-- `TextProcessor.top_trigrams`, with the post-state made explicit. -/
def top_trigrams (p : TextProcessor) (k : Nat) :
    List (List Word × Nat) × TextProcessor :=
  (most_common p.trigram_freq k, p)

/-- `TextProcessor.summary`: the data the report is rendered from
(console formatting is presentation only), with the post-state. -/
def summary (p : TextProcessor) :
    (List Char × Nat × Finset Word × List (Word × Nat) × List (List Word × Nat)) ×
      TextProcessor :=
  ((p.name, p.tokens.length, p.named_entities, (top_tokens p 20).1,
    (top_trigrams p 10).1), p)

/-- One public accessor invocation. -/
inductive ApiCall where
  | topTokens (n : Nat)
  | topTrigrams (k : Nat)
  | summaryCall

/-- The state after one accessor invocation. -/
def runCall (p : TextProcessor) : ApiCall → TextProcessor
  | ApiCall.topTokens n => (top_tokens p n).2
  | ApiCall.topTrigrams k => (top_trigrams p k).2
  | ApiCall.summaryCall => (summary p).2

/-- The state after a sequence of accessor invocations. -/
def runCalls (p : TextProcessor) (calls : List ApiCall) : TextProcessor :=
  calls.foldl runCall p

/-- Whether the next character position is a `\b` boundary for a run
that just ended: true at the end of the text or before a non-word
character. -/
def boundaryOk : List Char → Bool
  | [] => true
  | d :: _ => !isWordChar d

/-- Whether the character before the current position is a word
character (`none` is the start of the text). -/
def prevIsWord : Option Char → Bool
  | none => false
  | some p => isWordChar p

/-- Declarative reading of the tokenizing regular expression: the
maximal runs of ASCII letters delimited on both sides by non-word
characters or the ends of the text, one chunk at a time. -/
def chunkRuns (prev : Option Char) (s : List Char) : List Word :=
  match s with
  | [] => []
  | c :: rest =>
    if isAsciiLetter c then
      (if !prevIsWord prev && boundaryOk (rest.dropWhile isAsciiLetter) then
        [c :: rest.takeWhile isAsciiLetter] else []) ++
      chunkRuns (some c) (rest.dropWhile isAsciiLetter)
    else
      chunkRuns (some c) rest
termination_by s.length
decreasing_by
  · simp only [List.length_cons]
    exact Nat.lt_succ_of_le ((List.dropWhile_sublist _).length_le)
  · simp

/-- Modelled from the spec's words (§4.1): the maximal runs of ASCII
letters of a text, with no condition on the neighbouring characters. -/
def simpleRunsAux : List Char → List Char → List Word
  | [], acc => if acc.isEmpty then [] else [acc.reverse]
  | c :: rest, acc =>
    if isAsciiLetter c then simpleRunsAux rest (c :: acc)
    else (if acc.isEmpty then [] else [acc.reverse]) ++ simpleRunsAux rest []

/-- Modelled from the spec's words (§4.1): maximal runs of ASCII
letters of the raw text, each lowercased, in order of appearance,
with every non-letter character acting only as a separator. -/
def specTokenize (s : List Char) : List Word :=
  (simpleRunsAux s []).map (List.map lowerChar)

/-- Modelled from the spec's words (§4.3): the set of distinct maximal
runs of letters of the raw text that start with an uppercase letter,
minus the blacklist. -/
def specEntities (s : List Char) : Finset Word :=
  (((simpleRunsAux s []).filter startsUpper).filter
    (fun e => !decide (e ∈ blacklist))).toFinset

/-- The amended tokenizer contract: maximal letter runs delimited by
non-word characters or the text ends, lowercased. -/
def specTokensBounded (s : List Char) : List Word :=
  (chunkRuns none s).map (List.map lowerChar)

/-- The amended entity contract: among the maximal letter runs
delimited by non-word characters or the text ends, the distinct
capitalized ones, minus the blacklist. -/
def specEntitiesBounded (s : List Char) : Finset Word :=
  (((chunkRuns none s).filter startsUpper).filter
    (fun e => !decide (e ∈ blacklist))).toFinset

theorem isAsciiLetter_lowerChar (c : Char) :
    isAsciiLetter (lowerChar c) = isAsciiLetter c := by
  unfold lowerChar
  split <;> rfl

theorem isWordChar_lowerChar (c : Char) : isWordChar (lowerChar c) = isWordChar c := by
  unfold lowerChar
  split <;> rfl

theorem dropWhile_cons_false {p : Char → Bool} :
    ∀ (l : List Char) (d : Char) (r : List Char), l.dropWhile p = d :: r → p d = false := by
  intro l
  induction l with
  | nil => intro d r h; simp [List.dropWhile] at h
  | cons x xs ih =>
    intro d r h
    rw [List.dropWhile_cons] at h
    by_cases hx : p x
    · simp only [hx, if_true] at h
      exact ih d r h
    · simp only [hx, Bool.false_eq_true, if_false] at h
      injection h with h1 h2
      subst h1
      simpa using hx

theorem findallAux_run (s : List Char) : ∀ (acc : List Char) (ok : Bool), acc ≠ [] →
    findallAux s acc ok true =
      (if ok && boundaryOk (s.dropWhile isAsciiLetter) then
        [acc.reverse ++ s.takeWhile isAsciiLetter] else []) ++
      (match s.dropWhile isAsciiLetter with
       | [] => []
       | d :: rest => findallAux rest [] true (isWordChar d)) := by
  induction s with
  | nil =>
    intro acc ok hacc
    simp [findallAux, boundaryOk, List.isEmpty_iff, hacc]
  | cons c s ih =>
    intro acc ok hacc
    by_cases hc : isAsciiLetter c
    · rw [findallAux]
      simp only [hc, if_true, List.isEmpty_iff, if_neg hacc]
      rw [ih (c :: acc) ok (by simp)]
      simp [List.takeWhile_cons, List.dropWhile_cons, hc]
    · rw [findallAux]
      simp only [List.isEmpty_iff, if_neg hacc, List.takeWhile_cons, List.dropWhile_cons, hc,
        if_false, Bool.false_eq_true]
      simp [boundaryOk]

theorem findallAux_eq_chunkRuns (s : List Char) (prev : Option Char) :
    findallAux s [] true (prevIsWord prev) = chunkRuns prev s := by
  suffices h : ∀ (n : Nat) (s : List Char), s.length ≤ n → ∀ (prev : Option Char),
      findallAux s [] true (prevIsWord prev) = chunkRuns prev s by
    exact h s.length s le_rfl prev
  intro n
  induction n with
  | zero =>
    intro s hs prev
    rw [List.length_eq_zero.mp (Nat.le_zero.mp hs)]
    rw [chunkRuns]
    rfl
  | succ n ih =>
    intro s hs prev
    cases s with
    | nil => rw [chunkRuns]; rfl
    | cons c rest =>
      simp only [List.length_cons, Nat.succ_le_succ_iff] at hs
      by_cases hc : isAsciiLetter c
      · rw [findallAux]
        simp only [hc, if_true, List.isEmpty_nil, if_true]
        rw [findallAux_run rest [c] (!prevIsWord prev) (by simp)]
        rw [chunkRuns]
        simp only [hc, if_true]
        have htail : (match rest.dropWhile isAsciiLetter with
            | [] => []
            | d :: r => findallAux r [] true (isWordChar d)) =
            chunkRuns (some c) (rest.dropWhile isAsciiLetter) := by
          cases hdw : rest.dropWhile isAsciiLetter with
          | nil => rw [chunkRuns]
          | cons d r =>
            have hd : isAsciiLetter d = false := dropWhile_cons_false rest d r hdw
            rw [chunkRuns]
            simp only [hd, Bool.false_eq_true, if_false]
            have hlen : r.length ≤ n := by
              have h1 : (rest.dropWhile isAsciiLetter).length ≤ rest.length :=
                (List.dropWhile_sublist _).length_le
              rw [hdw] at h1
              simp only [List.length_cons] at h1
              omega
            have h2 := ih r hlen (some d)
            simpa [prevIsWord] using h2
        rw [htail]
        simp [List.reverse_cons]
      · rw [findallAux]
        simp only [hc, Bool.false_eq_true, if_false, List.isEmpty_nil, if_true,
          List.nil_append]
        rw [chunkRuns]
        simp only [hc, Bool.false_eq_true, if_false]
        have h2 := ih rest hs (some c)
        simpa [prevIsWord] using h2

theorem findallAux_map_lower : ∀ (s acc : List Char) (ok pw : Bool),
    findallAux (s.map lowerChar) (acc.map lowerChar) ok pw =
      (findallAux s acc ok pw).map (List.map lowerChar) := by
  intro s
  induction s with
  | nil =>
    intro acc ok pw
    simp only [List.map_nil, findallAux, List.isEmpty_eq_true, List.map_eq_nil_iff]
    by_cases hacc : acc = []
    · simp [hacc]
    · simp only [hacc, if_false]
      cases ok <;> simp [List.map_reverse]
  | cons c s ih =>
    intro acc ok pw
    simp only [List.map_cons, findallAux, isAsciiLetter_lowerChar c,
      isWordChar_lowerChar c]
    by_cases hc : isAsciiLetter c
    · simp only [hc, if_true, List.isEmpty_eq_true, List.map_eq_nil_iff]
      by_cases hacc : acc = []
      · simp only [hacc, if_true]
        have := ih [c] (!pw) true
        simpa using this
      · simp only [hacc, if_false]
        have := ih (c :: acc) ok true
        simpa using this
    · simp only [hc, Bool.false_eq_true, if_false, List.isEmpty_eq_true,
        List.map_eq_nil_iff]
      have := ih [] true (isWordChar c)
      simp only [List.map_nil] at this
      rw [this]
      by_cases hacc : acc = []
      · simp [hacc]
      · simp only [hacc, if_false, List.map_append]
        cases hok : ok && !isWordChar c <;> simp [List.map_reverse]

theorem wordRuns_map_lower (s : List Char) :
    wordRuns (s.map lowerChar) = (wordRuns s).map (List.map lowerChar) := by
  have := findallAux_map_lower s [] true false
  simpa [wordRuns] using this

theorem wordRuns_eq_chunkRuns (s : List Char) : wordRuns s = chunkRuns none s :=
  findallAux_eq_chunkRuns s none

theorem findallAux_no_letter : ∀ (s : List Char), (∀ c ∈ s, isAsciiLetter c = false) →
    ∀ (ok pw : Bool), findallAux s [] ok pw = [] := by
  intro s
  induction s with
  | nil => intro _ ok pw; rfl
  | cons c rest ih =>
    intro h ok pw
    have hc : isAsciiLetter c = false := h c (by simp)
    simp only [findallAux, hc, Bool.false_eq_true, if_false, List.isEmpty_nil, if_true,
      List.nil_append]
    exact ih (fun d hd => h d (by simp [hd])) true (isWordChar c)

theorem mem_dedupFirst [DecidableEq α] :
    ∀ (l seen : List α) (a : α), a ∈ dedupFirst seen l ↔ a ∈ l ∧ a ∉ seen := by
  intro l
  induction l with
  | nil => intro seen a; simp [dedupFirst]
  | cons x xs ih =>
    intro seen a
    rw [dedupFirst]
    by_cases hx : x ∈ seen
    · rw [if_pos hx, ih seen a, List.mem_cons]
      constructor
      · rintro ⟨h1, h2⟩; exact ⟨Or.inr h1, h2⟩
      · rintro ⟨h1 | h1, h2⟩
        · exact absurd (h1 ▸ hx) h2
        · exact ⟨h1, h2⟩
    · rw [if_neg hx]
      by_cases hax : a = x
      · subst hax
        simp [ih (a :: seen) a, hx]
      · simp [List.mem_cons, hax, ih (x :: seen) a]

theorem nodup_dedupFirst [DecidableEq α] :
    ∀ (l seen : List α), (dedupFirst seen l).Nodup := by
  intro l
  induction l with
  | nil => intro seen; simp [dedupFirst]
  | cons x xs ih =>
    intro seen
    rw [dedupFirst]
    by_cases hx : x ∈ seen
    · simpa [hx] using ih seen
    · simp only [hx, if_false, List.nodup_cons]
      refine ⟨fun hmem => ?_, ih (x :: seen)⟩
      exact ((mem_dedupFirst xs (x :: seen) x).mp hmem).2 (by simp)

theorem perm_dedupFirst_dedup [DecidableEq α] (l : List α) :
    (dedupFirst [] l).Perm l.dedup := by
  refine List.perm_of_nodup_nodup_toFinset_eq (nodup_dedupFirst l []) (List.nodup_dedup l) ?_
  ext a
  simp [List.mem_toFinset, mem_dedupFirst, List.mem_dedup]

theorem counterOf_sum [DecidableEq α] (l : List α) :
    ((counterOf l).map Prod.snd).sum = l.length := by
  have hperm : ((dedupFirst [] l).map (fun k => l.count k)).Perm
      (l.dedup.map (fun k => l.count k)) := (perm_dedupFirst_dedup l).map _
  calc ((counterOf l).map Prod.snd).sum
      = ((dedupFirst [] l).map (fun k => l.count k)).sum := by
        simp only [counterOf, List.map_map]
        rfl
    _ = (l.dedup.map (fun k => l.count k)).sum := hperm.sum_eq
    _ = l.length := List.sum_map_count_dedup_eq_length l

theorem counterOf_length [DecidableEq α] (l : List α) :
    (counterOf l).length = l.dedup.length := by
  simp [counterOf, (perm_dedupFirst_dedup l).length_eq]

theorem filter_eq_of_nodup [DecidableEq α] :
    ∀ (xs : List α), xs.Nodup → ∀ k : α,
      xs.filter (fun y => decide (y = k)) = if k ∈ xs then [k] else [] := by
  intro xs
  induction xs with
  | nil => intro _ k; simp
  | cons x xs ih =>
    intro hnd k
    have hx : x ∉ xs := (List.nodup_cons.mp hnd).1
    rw [List.filter_cons]
    by_cases hxk : x = k
    · subst hxk
      rw [ih (List.nodup_cons.mp hnd).2 x]
      simp [hx]
    · rw [ih (List.nodup_cons.mp hnd).2 k]
      have hkx : ¬k = x := fun h => hxk h.symm
      simp [hxk, hkx, List.mem_cons]

theorem counterGet_counterOf [DecidableEq α] (l : List α) (k : α) :
    counterGet (counterOf l) k = l.count k := by
  have hfil : (counterOf l).filter (fun kc => decide (kc.1 = k)) =
      ((dedupFirst [] l).filter (fun y => decide (y = k))).map
        (fun k2 => (k2, l.count k2)) := by
    simp [counterOf, List.filter_map]
    rfl
  rw [counterGet, hfil, filter_eq_of_nodup (dedupFirst [] l) (nodup_dedupFirst l []) k]
  by_cases hk : k ∈ l
  · have : k ∈ dedupFirst [] l := (mem_dedupFirst l [] k).mpr ⟨hk, by simp⟩
    simp [this]
  · have : k ∉ dedupFirst [] l := fun h => hk ((mem_dedupFirst l [] k).mp h).1
    simp [this, List.count_eq_zero_of_not_mem hk]

theorem count_eq_occurrences [DecidableEq α] (k : α) (l : List α) :
    l.count k = occurrences k l := by
  rw [occurrences, ← List.countP_eq_length_filter]
  rfl

theorem most_common_length_le (c : List (α × Nat)) (n : Nat) :
    (most_common c n).length ≤ n := by
  simp only [most_common, List.length_take]
  exact min_le_left _ _

theorem most_common_length_le_keys (c : List (α × Nat)) (n : Nat) :
    (most_common c n).length ≤ c.length := by
  simp only [most_common, List.length_take]
  exact le_trans (min_le_right _ _) (List.perm_insertionSort _ c).length_eq.le

theorem most_common_sorted (c : List (α × Nat)) (n : Nat) :
    List.Pairwise (fun a b : α × Nat => b.2 ≤ a.2) (most_common c n) := by
  haveI h1 : IsTotal (α × Nat) (fun a b => b.2 ≤ a.2) := ⟨fun a b => Nat.le_total b.2 a.2⟩
  haveI h2 : IsTrans (α × Nat) (fun a b => b.2 ≤ a.2) :=
    ⟨fun _ _ _ hab hbc => Nat.le_trans hbc hab⟩
  have hs := List.sorted_insertionSort (fun a b : α × Nat => b.2 ≤ a.2) c
  exact List.Pairwise.sublist (List.take_sublist n _) hs

theorem ne_true_of_false {b : Bool} (h : b = false) : ¬(b = true) := by
  simp [h]

/-- C1, counterexample.  The claim says every maximal run of ASCII
letters becomes a token and that digits act only as separators, but on
the input "ab1" the tokenizer returns no token at all: the `\b` after
`[a-zA-Z]+` cannot match between a letter and a digit, so a letter run
adjacent to a digit is dropped entirely rather than delimited. -/
theorem C1_tokenize_counterexample :
    tokenize ("ab1".toList) = [] ∧
    specTokenize ("ab1".toList) = ["ab".toList] ∧
    tokenize ("ab1".toList) ≠ specTokenize ("ab1".toList) := by
  refine ⟨by decide, by decide, by decide⟩

/-- C1, amended.  The token sequence equals the left-to-right sequence
of maximal runs of ASCII letters that are delimited on both sides by a
non-word character or an end of the text, each lowercased; a letter
run adjacent to a digit or underscore is omitted entirely.  The spec's
example "Hello, World! 123" still tokenizes to exactly
["hello", "world"], and an input containing no letters still yields
the empty sequence. -/
theorem C1_tokenize_amended :
    (∀ s : List Char, tokenize s = specTokensBounded s) ∧
    tokenize ("Hello, World! 123".toList) = ["hello".toList, "world".toList] ∧
    (∀ s : List Char, (∀ c ∈ s, isAsciiLetter c = false) → tokenize s = []) := by
  refine ⟨fun s => ?_, by decide, fun s h => ?_⟩
  · rw [tokenize, wordRuns_map_lower, wordRuns_eq_chunkRuns]
    rfl
  · rw [tokenize, wordRuns]
    refine findallAux_no_letter (s.map lowerChar) ?_ true false
    intro c hc
    obtain ⟨d, hd, rfl⟩ := List.mem_map.mp hc
    rw [isAsciiLetter_lowerChar]
    exact h d hd

/-- C1, witness for the amended theorem: the input "98!" has no
letters and tokenizes to the empty sequence. -/
theorem C1_tokenize_amended_witness :
    (∀ c ∈ ("98!".toList), isAsciiLetter c = false) ∧ tokenize ("98!".toList) = [] :=
  ⟨by decide, C1_tokenize_amended.2.2 ("98!".toList) (by decide)⟩

/-- C2.  The lemmatizer applies exactly the first matching rule of the
priority list — "ies" with length above 3, else "es", else "ed" with
length above 4, else "ing" with length above 5, else "s" with length
above 3, else no change — and the six examples of the spec hold,
including lemmatize("running") = "runn". -/
theorem C2_lemmatizer_rules :
    (∀ w : Word,
      (("ies".toList.isSuffixOf w && decide (3 < w.length)) = true →
        simple_lemmatize w = w.take (w.length - 3) ++ "y".toList) ∧
      (("ies".toList.isSuffixOf w && decide (3 < w.length)) = false →
        "es".toList.isSuffixOf w = true →
        simple_lemmatize w = w.take (w.length - 2)) ∧
      (("ies".toList.isSuffixOf w && decide (3 < w.length)) = false →
        "es".toList.isSuffixOf w = false →
        ("ed".toList.isSuffixOf w && decide (4 < w.length)) = true →
        simple_lemmatize w = w.take (w.length - 2)) ∧
      (("ies".toList.isSuffixOf w && decide (3 < w.length)) = false →
        "es".toList.isSuffixOf w = false →
        ("ed".toList.isSuffixOf w && decide (4 < w.length)) = false →
        ("ing".toList.isSuffixOf w && decide (5 < w.length)) = true →
        simple_lemmatize w = w.take (w.length - 3)) ∧
      (("ies".toList.isSuffixOf w && decide (3 < w.length)) = false →
        "es".toList.isSuffixOf w = false →
        ("ed".toList.isSuffixOf w && decide (4 < w.length)) = false →
        ("ing".toList.isSuffixOf w && decide (5 < w.length)) = false →
        ("s".toList.isSuffixOf w && decide (3 < w.length)) = true →
        simple_lemmatize w = w.take (w.length - 1)) ∧
      (("ies".toList.isSuffixOf w && decide (3 < w.length)) = false →
        "es".toList.isSuffixOf w = false →
        ("ed".toList.isSuffixOf w && decide (4 < w.length)) = false →
        ("ing".toList.isSuffixOf w && decide (5 < w.length)) = false →
        ("s".toList.isSuffixOf w && decide (3 < w.length)) = false →
        simple_lemmatize w = w)) ∧
    simple_lemmatize ("flies".toList) = "fly".toList ∧
    simple_lemmatize ("boxes".toList) = "box".toList ∧
    simple_lemmatize ("jumped".toList) = "jump".toList ∧
    simple_lemmatize ("running".toList) = "runn".toList ∧
    simple_lemmatize ("cats".toList) = "cat".toList ∧
    simple_lemmatize ("is".toList) = "is".toList := by
  refine ⟨fun w => ?_, by decide, by decide, by decide, by decide, by decide, by decide⟩
  unfold simple_lemmatize
  refine ⟨fun h1 => ?_, fun h1 h2 => ?_, fun h1 h2 h3 => ?_, fun h1 h2 h3 h4 => ?_,
    fun h1 h2 h3 h4 h5 => ?_, fun h1 h2 h3 h4 h5 => ?_⟩
  · rw [if_pos h1]
  · rw [if_neg (ne_true_of_false h1), if_pos h2]
  · rw [if_neg (ne_true_of_false h1), if_neg (ne_true_of_false h2), if_pos h3]
  · rw [if_neg (ne_true_of_false h1), if_neg (ne_true_of_false h2), if_neg (ne_true_of_false h3), if_pos h4]
  · rw [if_neg (ne_true_of_false h1), if_neg (ne_true_of_false h2), if_neg (ne_true_of_false h3),
      if_neg (ne_true_of_false h4), if_pos h5]
  · rw [if_neg (ne_true_of_false h1), if_neg (ne_true_of_false h2), if_neg (ne_true_of_false h3),
      if_neg (ne_true_of_false h4), if_neg (ne_true_of_false h5)]

/-- C2, witness: the first rule applied to "flies". -/
theorem C2_lemmatizer_rules_witness :
    ("ies".toList.isSuffixOf ("flies".toList) && decide (3 < ("flies".toList).length)) =
        true ∧
    simple_lemmatize ("flies".toList) =
      ("flies".toList).take (("flies".toList).length - 3) ++ "y".toList :=
  ⟨by decide, (C2_lemmatizer_rules.1 ("flies".toList)).1 (by decide)⟩

/-- C3.  For every stemmer, stopword set and token sequence, the
normalized sequence equals: lemmatize each token, drop a lemmatized
token exactly when it is a stopword and not in the preserved
allow-list, stem each survivor; the surviving subsequence keeps its
relative order with no placeholder, and every allow-listed lemmatized
token survives the filter. -/
theorem C3_normalizer_pipeline (stem : Word → Word) (sw : Word → Bool)
    (tokens : List Word) :
    process_tokens stem sw tokens =
      ((tokens.map simple_lemmatize).filter
        (fun t => !(sw t && !decide (t ∈ allowNames)))).map stem ∧
    ((tokens.map simple_lemmatize).filter
        (fun t => !(sw t && !decide (t ∈ allowNames)))).Sublist
      (tokens.map simple_lemmatize) ∧
    ∀ t : Word, t ∈ allowNames → t ∈ tokens.map simple_lemmatize →
      stem t ∈ process_tokens stem sw tokens := by
  have hpred : ∀ t : Word, (!sw t || decide (t ∈ allowNames)) =
      (!(sw t && !decide (t ∈ allowNames))) := by
    intro t
    cases hsw : sw t <;> cases hmem : decide (t ∈ allowNames) <;> rfl
  refine ⟨?_, List.filter_sublist _, ?_⟩
  · simp only [process_tokens]
    congr 1
    exact List.filter_congr (fun t _ => hpred t)
  · intro t ht hmem
    have hkeep : (!sw t || decide (t ∈ allowNames)) = true := by
      have : decide (t ∈ allowNames) = true := decide_eq_true ht
      simp [this]
    simp only [process_tokens]
    exact List.mem_map_of_mem stem (List.mem_filter.mpr ⟨hmem, hkeep⟩)

/-- C3, witness: with a stopword set containing "romeo", the
allow-listed token "romeo" still survives normalization. -/
theorem C3_normalizer_pipeline_witness :
    "romeo".toList ∈ allowNames ∧
    "romeo".toList ∈ ([("romeo".toList : Word)].map simple_lemmatize) ∧
    id ("romeo".toList) ∈
      process_tokens id (fun w => decide (w = "romeo".toList)) [("romeo".toList : Word)] :=
  ⟨by decide, by decide,
    (C3_normalizer_pipeline id (fun w => decide (w = "romeo".toList))
      [("romeo".toList : Word)]).2.2 ("romeo".toList) (by decide) (by decide)⟩

/-- C4, counterexample.  The claim says the entity set is the set of
distinct capitalized maximal letter runs minus the blacklist, but on
"Bob3" the extractor returns the empty set: the `\b` of
`\b[A-Z][a-zA-Z]*\b` cannot match between a letter and a digit, so the
capitalized run "Bob" is dropped entirely. -/
theorem C4_entities_counterexample :
    named_entities_of ("Bob3".toList) = (∅ : Finset Word) ∧
    specEntities ("Bob3".toList) = ({"Bob".toList} : Finset Word) ∧
    named_entities_of ("Bob3".toList) ≠ specEntities ("Bob3".toList) := by
  refine ⟨by decide, by decide, by decide⟩

/-- C4, amended.  The entity set equals the set of distinct maximal
letter runs that start with an uppercase letter and are delimited on
both sides by a non-word character or an end of the text, minus exact
matches of the blacklist (a capitalized run adjacent to a digit or
underscore is omitted); a blacklisted word is never in the result, and
every member occurs exactly once in the underlying collection. -/
theorem C4_entities_amended (s : List Char) :
    named_entities_of s = specEntitiesBounded s ∧
    (∀ e : Word, e ∈ blacklist → e ∉ named_entities_of s) ∧
    (∀ e : Word, e ∈ named_entities_of s → (named_entities_of s).val.count e = 1) := by
  refine ⟨?_, ?_, ?_⟩
  · rw [named_entities_of, entity_candidates, wordRuns_eq_chunkRuns]
    rfl
  · intro e he hmem
    rw [named_entities_of] at hmem
    have hf := List.mem_filter.mp (List.mem_toFinset.mp hmem)
    have hdec : decide (e ∈ blacklist) = true := decide_eq_true he
    simp [hdec] at hf
  · intro e hmem
    exact Multiset.count_eq_one_of_mem (named_entities_of s).nodup hmem

/-- C4, witness for the amended theorem: "The" is blacklisted and is
absent from the entity set of "The cat". -/
theorem C4_entities_amended_witness :
    "The".toList ∈ blacklist ∧ "The".toList ∉ named_entities_of ("The cat".toList) :=
  ⟨by decide, (C4_entities_amended ("The cat".toList)).2.1 ("The".toList) (by decide)⟩

/-- C5, counterexample.  The claim quantifies over every window size N
and asserts L − N + 1 window observations whenever L ≥ N, but at N = 0
(and any L) the code returns an empty counter — `zip()` of zero
iterables is empty — while L − N + 1 = L + 1 ≥ 1; here at L = 0 the
sum of counts is 0, not 1. -/
theorem C5_trigram_counterexample :
    compute_trigrams 0 ([] : List Word) = [] ∧
    ((compute_trigrams 0 ([] : List Word)).map Prod.snd).sum ≠
      ([] : List Word).length - 0 + 1 := by
  refine ⟨by decide, by decide⟩

/-- C5, amended.  For every window size N ≥ 1 and token sequence of
length L: if L < N the frequency mapping is empty (no error); if
L ≥ N every contiguous window of N consecutive tokens is counted under
its ordered N-tuple key, and the total number of window observations
equals L − N + 1. -/
theorem C5_trigram_amended (n : Nat) (l : List Word) (hn : 1 ≤ n) :
    (l.length < n → compute_trigrams n l = []) ∧
    (n ≤ l.length →
      ((compute_trigrams n l).map Prod.snd).sum = l.length - n + 1) ∧
    (n ≤ l.length →
      ∀ w : List Word,
        counterGet (compute_trigrams n l) w = occurrences w (slidingWindows n l)) := by
  refine ⟨fun hlt => ?_, fun hge => ?_, fun hge w => ?_⟩
  · rw [compute_trigrams, if_pos hlt]
  · rw [compute_trigrams, if_neg (by omega), counterOf_sum, slidingWindows,
      if_neg (by omega)]
    simp only [List.length_map, List.length_range]
    omega
  · rw [compute_trigrams, if_neg (by omega)]
    exact (counterGet_counterOf _ w).trans (count_eq_occurrences w _)

/-- C5, witness for the amended theorem: four tokens and window size 3
give 4 − 3 + 1 = 2 window observations. -/
theorem C5_trigram_amended_witness :
    1 ≤ 3 ∧
    3 ≤ ([("a".toList : Word), "b".toList, "a".toList, "b".toList]).length ∧
    ((compute_trigrams 3 [("a".toList : Word), "b".toList, "a".toList, "b".toList]).map
        Prod.snd).sum =
      ([("a".toList : Word), "b".toList, "a".toList, "b".toList]).length - 3 + 1 :=
  ⟨by decide, by decide,
    (C5_trigram_amended 3 [("a".toList : Word), "b".toList, "a".toList, "b".toList]
      (by decide)).2.1 (by decide)⟩

/-- C6.  For every constructed processor, `top_tokens n` has length at
most `n` and at most the number of distinct normalized tokens, and
`top_trigrams k` has length at most `k` and at most the number of
distinct trigrams; both lists have non-increasing counts. -/
theorem C6_top_accessors (stem : Word → Word) (sw : Word → Bool)
    (text nm : List Char) (n k : Nat) :
    ((top_tokens (mkTextProcessor stem sw text nm) n).1.length ≤ n) ∧
    ((top_tokens (mkTextProcessor stem sw text nm) n).1.length ≤
      (mkTextProcessor stem sw text nm).processed_tokens.dedup.length) ∧
    List.Pairwise (fun a b : Word × Nat => b.2 ≤ a.2)
      (top_tokens (mkTextProcessor stem sw text nm) n).1 ∧
    ((top_trigrams (mkTextProcessor stem sw text nm) k).1.length ≤ k) ∧
    ((top_trigrams (mkTextProcessor stem sw text nm) k).1.length ≤
      (slidingWindows 3 (mkTextProcessor stem sw text nm).processed_tokens).dedup.length) ∧
    List.Pairwise (fun a b : List Word × Nat => b.2 ≤ a.2)
      (top_trigrams (mkTextProcessor stem sw text nm) k).1 := by
  have hfreq : (mkTextProcessor stem sw text nm).token_freq =
      counterOf (mkTextProcessor stem sw text nm).processed_tokens := rfl
  have htri : (mkTextProcessor stem sw text nm).trigram_freq =
      compute_trigrams 3 (mkTextProcessor stem sw text nm).processed_tokens := rfl
  refine ⟨most_common_length_le _ n, ?_, most_common_sorted _ n,
    most_common_length_le _ k, ?_, most_common_sorted _ k⟩
  · refine le_trans (most_common_length_le_keys _ n) ?_
    rw [hfreq, counterOf_length]
  · refine le_trans (most_common_length_le_keys _ k) ?_
    rw [htri, compute_trigrams]
    by_cases h : (mkTextProcessor stem sw text nm).processed_tokens.length < 3
    · rw [if_pos h]
      simp
    · rw [if_neg h, counterOf_length]

/-- C7.  When the tokenization of the input is empty, construction
yields empty token, normalized-token, frequency and trigram
structures and an empty entity set, and the accessors return empty
lists for every bound. -/
theorem C7_empty_input (stem : Word → Word) (sw : Word → Bool) (text nm : List Char)
    (h : tokenize text = []) :
    (mkTextProcessor stem sw text nm).tokens = [] ∧
    (mkTextProcessor stem sw text nm).processed_tokens = [] ∧
    (mkTextProcessor stem sw text nm).token_freq = [] ∧
    (mkTextProcessor stem sw text nm).trigram_freq = [] ∧
    (mkTextProcessor stem sw text nm).named_entities = ∅ ∧
    (∀ n, (top_tokens (mkTextProcessor stem sw text nm) n).1 = []) ∧
    (∀ k, (top_trigrams (mkTextProcessor stem sw text nm) k).1 = []) := by
  have htoks : (mkTextProcessor stem sw text nm).tokens = [] := h
  have hproc : (mkTextProcessor stem sw text nm).processed_tokens = [] := by
    show process_tokens stem sw (tokenize text) = []
    rw [h]
    rfl
  have hfreq : (mkTextProcessor stem sw text nm).token_freq = [] := by
    show counterOf (process_tokens stem sw (tokenize text)) = []
    rw [h]
    rfl
  have htri : (mkTextProcessor stem sw text nm).trigram_freq = [] := by
    show compute_trigrams 3 (process_tokens stem sw (tokenize text)) = []
    rw [h]
    rfl
  have hents : (mkTextProcessor stem sw text nm).named_entities = ∅ := by
    show named_entities_of text = ∅
    have h2 : (wordRuns text).map (List.map lowerChar) = [] := by
      rw [← wordRuns_map_lower]
      exact h
    rw [named_entities_of, entity_candidates, List.map_eq_nil_iff.mp h2]
    rfl
  refine ⟨htoks, hproc, hfreq, htri, hents, fun n => ?_, fun k => ?_⟩
  · show most_common (mkTextProcessor stem sw text nm).token_freq n = []
    rw [hfreq]
    simp [most_common]
  · show most_common (mkTextProcessor stem sw text nm).trigram_freq k = []
    rw [htri]
    simp [most_common]

/-- C7, witness: the input "123 !?" has no letter run, so every
derived structure of its processor is empty. -/
theorem C7_empty_input_witness :
    tokenize ("123 !?".toList) = [] ∧
    (mkTextProcessor id (fun _ => false) ("123 !?".toList) ("d".toList)).token_freq = [] ∧
    (mkTextProcessor id (fun _ => false) ("123 !?".toList) ("d".toList)).named_entities =
      ∅ :=
  ⟨by decide,
    (C7_empty_input id (fun _ => false) ("123 !?".toList) ("d".toList) (by decide)).2.2.1,
    (C7_empty_input id (fun _ => false) ("123 !?".toList) ("d".toList)
      (by decide)).2.2.2.2.1⟩

/-- C8.  The accessors mutate nothing: any sequence of `top_tokens`,
`top_trigrams` and `summary` invocations, in any order and number,
leaves the processor state — every field — unchanged. -/
theorem C8_accessors_frame (p : TextProcessor) (calls : List ApiCall) :
    runCalls p calls = p := by
  induction calls with
  | nil => rfl
  | cons c cs ih =>
    have hc : runCall p c = p := by cases c <;> rfl
    show runCalls (runCall p c) cs = p
    rw [hc]
    exact ih

/-- C9.  Construction is deterministic: two constructions from equal
inputs, with the same stemmer and stopword set, agree on every field
and on every accessor output. -/
theorem C9_deterministic_construction (stem : Word → Word) (sw : Word → Bool)
    (text nm text2 nm2 : List Char) (htext : text = text2) (hnm : nm = nm2) :
    mkTextProcessor stem sw text nm = mkTextProcessor stem sw text2 nm2 ∧
    (∀ n, (top_tokens (mkTextProcessor stem sw text nm) n).1 =
      (top_tokens (mkTextProcessor stem sw text2 nm2) n).1) ∧
    (∀ k, (top_trigrams (mkTextProcessor stem sw text nm) k).1 =
      (top_trigrams (mkTextProcessor stem sw text2 nm2) k).1) := by
  subst htext
  subst hnm
  exact ⟨rfl, fun _ => rfl, fun _ => rfl⟩

/-- C9, witness: two constructions on the literal input "ab". -/
theorem C9_deterministic_construction_witness :
    "ab".toList = "ab".toList ∧ "d".toList = "d".toList ∧
    mkTextProcessor id (fun _ => false) ("ab".toList) ("d".toList) =
      mkTextProcessor id (fun _ => false) ("ab".toList) ("d".toList) :=
  ⟨rfl, rfl,
    (C9_deterministic_construction id (fun _ => false) ("ab".toList) ("d".toList)
      ("ab".toList) ("d".toList) rfl rfl).1⟩

/-- C10.  The token-frequency mapping is a faithful multiset of the
normalized sequence: its keys are exactly the distinct normalized
tokens, every stored count is positive, the counts sum to the length
of the normalized sequence, and that length never exceeds the number
of raw tokens. -/
theorem C10_token_freq_invariants (stem : Word → Word) (sw : Word → Bool)
    (text nm : List Char) :
    (∀ w : Word,
      w ∈ (mkTextProcessor stem sw text nm).token_freq.map Prod.fst ↔
        w ∈ (mkTextProcessor stem sw text nm).processed_tokens) ∧
    (∀ kc : Word × Nat,
      kc ∈ (mkTextProcessor stem sw text nm).token_freq → 0 < kc.2) ∧
    ((mkTextProcessor stem sw text nm).token_freq.map Prod.snd).sum =
      (mkTextProcessor stem sw text nm).processed_tokens.length ∧
    (mkTextProcessor stem sw text nm).processed_tokens.length ≤
      (mkTextProcessor stem sw text nm).tokens.length := by
  have hfreq : (mkTextProcessor stem sw text nm).token_freq =
      counterOf (mkTextProcessor stem sw text nm).processed_tokens := rfl
  refine ⟨fun w => ?_, fun kc hkc => ?_, ?_, ?_⟩
  · rw [hfreq]
    have hkeys : (counterOf (mkTextProcessor stem sw text nm).processed_tokens).map
        Prod.fst = dedupFirst [] (mkTextProcessor stem sw text nm).processed_tokens := by
      simp only [counterOf, List.map_map]
      exact List.map_id _
    rw [hkeys, mem_dedupFirst]
    simp
  · rw [hfreq, counterOf] at hkc
    obtain ⟨k2, hk2, rfl⟩ := List.mem_map.mp hkc
    have hmem : k2 ∈ (mkTextProcessor stem sw text nm).processed_tokens :=
      ((mem_dedupFirst _ _ _).mp hk2).1
    simpa using List.count_pos_iff.mpr hmem
  · rw [hfreq]
    exact counterOf_sum _
  · show (process_tokens stem sw (tokenize text)).length ≤ (tokenize text).length
    simp only [process_tokens, List.length_map]
    have h1 := (List.filter_sublist (p := fun t => !sw t || decide (t ∈ allowNames))
      ((tokenize text).map simple_lemmatize)).length_le
    simpa using h1

/-- C10, witness: on "cat cat" with an empty stopword set and the
identity stemmer, the key "cat" is stored with count 2, which is
positive. -/
theorem C10_token_freq_invariants_witness :
    ((("cat".toList : Word), 2) ∈
      (mkTextProcessor id (fun _ => false) ("cat cat".toList) ("d".toList)).token_freq) ∧
    0 < ((("cat".toList : Word), 2) : Word × Nat).2 :=
  ⟨by decide,
    (C10_token_freq_invariants id (fun _ => false) ("cat cat".toList) ("d".toList)).2.1
      (("cat".toList : Word), 2) (by decide)⟩

end Authors
